import Mathlib

/-!
# Verification of the FoxDot `Sequences.py` pattern layer

Shallow embedding of `src/FoxDot/lib/Patterns/Sequences.py`.  Pure Python
functions become Lean functions over `List`; Python numbers become `Rat`
(or `Int`/`Nat` where the source only ever uses integers); code that can
raise becomes `Except`/`Res`-valued.  Helper functions that live in the
repository's `Main.py`/`Operations.py`/`PGroups.py` (absent from `src/`)
are modelled from the specification and carry a doc comment starting
with `Modelled from the spec:`.

Unbounded Python `while` loops are embedded as fuel-indexed recursions;
for every claim the chosen fuel is proved sufficient (or the loop is
proved to diverge for every fuel, in which case the runner reports
`Res.hang`).
-/

namespace FoxDotSeq

/-- Error taxonomy: `invalidArgument` is the spec's InvalidArgument;
`indexError`/`typeError` model the corresponding Python exceptions. -/
inductive Err where
  | invalidArgument
  | indexError
  | typeError
deriving DecidableEq

/-- Result of running a piece of code that can raise or loop forever:
a value, a raised error, or divergence. -/
inductive Res (α : Type) where
  | ok (val : α)
  | err (e : Err)
  | hang
deriving DecidableEq

/-- Values manipulated by the pattern layer: numbers, strings, Python
tuples, PGroups and Patterns/lists. -/
inductive Val where
  | num (q : Rat)
  | str (s : String)
  | tup (xs : List Val)
  | grp (xs : List Val)
  | seq (xs : List Val)

instance : Inhabited Val := ⟨Val.num 0⟩

/-- Modelled from the spec: `element_at(seq, i) = seq[i mod len(seq)]`
(§3, §6); this is `modi` from the repository's `Operations.py`, which is
not under `src/`.  Only defined (= used by the source) on non-empty
sequences; we return `default` on the empty list. -/
def modi [Inhabited α] (xs : List α) (i : Nat) : α :=
  xs.getD (i % xs.length) default

/-- Modelled from the spec: `L` = least common multiple of a list of
lengths (§4.2, §4.3); `LCM(*args)` of `Operations.py` is not under
`src/`. -/
def LCM (xs : List Nat) : Nat :=
  xs.foldr Nat.lcm 1

/-- `PJoin(patterns)` (Sequences.py):
`data = []; for pattern in patterns: data.extend(pattern); return Pattern(data)`. -/
def PJoin (patterns : List (List α)) : List α :=
  patterns.foldl (fun acc p => acc ++ p) []

/-- `PAlt(pat1, pat2, *patN)` (Sequences.py): converts each argument to
a stream (inputs are given here already as lists, the job `asStream`
does in the source), then for `n` in `range(LCM(lengths))` appends
`modi(i, n)` for every input `i` in order. -/
def PAlt [Inhabited α] (pat1 pat2 : List α) (patN : List (List α)) : List α :=
  let item := pat1 :: pat2 :: patN
  let size := LCM (item.map List.length)
  (List.range size).foldl (fun data n => data ++ item.map (fun i => modi i n)) []

/-- Modelled from the spec: `stretch(seq, size)` of the external
Sequence container "cyclically repeats `seq` (`element_at` semantics)
until exactly `size` elements are produced" (§4.3, §6). -/
def stretch [Inhabited α] (seq : List α) (size : Nat) : List α :=
  (List.range size).map (fun n => modi seq n)

/-- `PStretch(seq, size)` (Sequences.py): `Pattern(seq).stretch(size)`. -/
def PStretch [Inhabited α] (seq : List α) (size : Nat) : List α :=
  stretch seq size

/-! ## The rhythm pipeline: `PDur` and its helpers -/

/-- The refinement loop at the start of `PDur` (Sequences.py):
`while n > k: k = k * 2; dur = dur / 2`, embedded with explicit fuel
(`none` = the fuel ran out before the guard cleared). -/
def refineLoop (n : Int) : Nat → Int → Rat → Option (Int × Rat)
  | fuel, k, dur =>
    if n > k then
      match fuel with
      | 0 => none
      | f + 1 => refineLoop n f (k * 2) (dur / 2)
    else some (k, dur)

/-- One bisection round of Bjorklund's procedure on the grouped pulse
and rest blocks, with fuel (every concrete run below exhausts the guard
long before the fuel). -/
def bjorklund : Nat → List (List Int) → List (List Int) → List Int
  | 0, front, back => front.flatten ++ back.flatten
  | fuel + 1, front, back =>
    if back.length ≤ 1 then front.flatten ++ back.flatten
    else
      let m := min front.length back.length
      bjorklund fuel (List.zipWith (fun a b => a ++ b) (front.take m) (back.take m))
        (if m < front.length then front.drop m else back.drop m)

/-- Modelled from the spec: `euclid(n, k)` — "Euclidean-rhythm pulse
Sequence of length `k` containing exactly `n` pulse-values, distributed
as evenly as possible using the standard Bjorklund bisection procedure
(recursively distribute `n` groups of [pulse] among `k-n` groups of
[rest], merging remainders)" (§4.2), failing with InvalidArgument when
`n <= 0` or `k <= 0` (§4.2 failure conditions).  `EuclidsAlgorithm`
lives in the repository's `Operations.py`, which is not under `src/`. -/
def EuclidsAlgorithm (n k : Int) : Except Err (List Int) :=
  if n ≤ 0 ∨ k ≤ 0 then .error .invalidArgument
  else .ok (bjorklund k.toNat (List.replicate n.toNat [1]) (List.replicate (k - n).toNat [0]))

/-- Modelled from the spec: a Duration Sequence is "derived from a
Pulse Sequence by run-length measurement between consecutive
pulse-value entries (wrapping at the end back to the first entry)"
(§3); `PulsesToDurations` lives in `Operations.py`, not under `src/`.
Starting a run at the leading entry, each later `1` closes the current
run, and the final (wrapping) run is appended at the end. -/
def PulsesToDurations (data : List Int) : List Int :=
  let f := data.tail.foldl
    (fun (acc : List Int × Int) item =>
      if item = 1 then (acc.1 ++ [acc.2], 1) else (acc.1, acc.2 + 1))
    ([], 1)
  f.1 ++ [f.2]

/-- Modelled from the spec: `rotate(seq, n)` of the external Sequence
container — "cyclic shift left by `n`" (§6). -/
def rotate (xs : List Rat) (m : Int) : List Rat :=
  if xs.length = 0 then xs
  else
    let i := (m % (xs.length : Int)).toNat
    xs.drop i ++ xs.take i

/-- `PDur(n, k, start=0, dur=0.25)` (Sequences.py): run the refinement
loop, compute `Pattern(PulsesToDurations(EuclidsAlgorithm(n, k)))`,
rotate by `start` when non-zero, and scale elementwise by `dur`.
The refinement loop gets fuel `n.toNat`, proved below to suffice
whenever the loop terminates at all (`Res.hang` is returned exactly on
the argument ranges where the Python loop spins forever). -/
def PDurRun (n k start : Int) (dur : Rat) : Res (List Rat) :=
  match refineLoop n n.toNat k dur with
  | none => .hang
  | some (k2, dur2) =>
    match EuclidsAlgorithm n k2 with
    | .error e => .err e
    | .ok pulses =>
      let pat := (PulsesToDurations pulses).map (fun x => (x : Rat))
      let pat := if start ≠ 0 then rotate pat start else pat
      .ok (pat.map (fun x => x * dur2))

/-! ## `PSum` -/

/-- First `while` loop of `PSum` (Sequences.py):
`while sum(data) > total: data = [step for x in range(n)]; step *= 0.5`,
with fuel.  The state after one iteration is `(step / 2, [step] * n)`. -/
def psumFill (n : Nat) (total : Rat) : Nat → Rat → List Rat → Option (List Rat × Rat)
  | fuel, step, data =>
    if data.sum > total then
      match fuel with
      | 0 => none
      | f + 1 => psumFill n total f (step / 2) (List.replicate n step)
    else some (data, step)

/-- Second `while` loop of `PSum` (Sequences.py):
`while sum(data) < total and step >= lim:` — halve `step` when one more
addition would overshoot, otherwise add `step` at index `i % n` and
advance `i`; with fuel. -/
def psumAdd (n : Nat) (total lim : Rat) : Nat → Nat → Rat → List Rat → Option (List Rat)
  | fuel, i, step, data =>
    if data.sum < total ∧ step ≥ lim then
      match fuel with
      | 0 => none
      | f + 1 =>
        if data.sum + step > total then
          psumAdd n total lim f i (step / 2) data
        else
          psumAdd n total lim f (i + 1) step (data.set (i % n) (data.getD (i % n) 0 + step))
    else some data

/-- `PSum(n, total, lim=0.125)` (Sequences.py): start from
`data = [total + 1]`, `step = 1`, run both loops.  The fuels
`2 * n * total.den + 2` and `3 + (8 * total).num.toNat` are proved
sufficient below for every `n ≥ 1`, `total > 0` at the default
tolerance, so `none` never arises on the claims' domain. -/
def PSum (n : Nat) (total lim : Rat) : Option (List Rat) :=
  match psumFill n total (2 * n * total.den + 2) 1 [total + 1] with
  | none => none
  | some (data, step) => psumAdd n total lim (3 + (8 * total).num.toNat) 0 step data

/-! ## The construction facade `P` -/

/-- Modelled from the spec: the `PGroup` constructor (from `PGroups.py`,
not under `src/`) wraps values as "a tuple of values tagged with a
combination kind" of kind plain (§3); a tuple (or sequence) argument
supplies the values, any other single value becomes a one-value
Group. -/
def PGroupCtor : Val → Val
  | .tup xs => .grp xs
  | .seq xs => .grp xs
  | v => .grp [v]

/-- `__pattern__.__call__(*args)` (Sequences.py):
`return PGroup(args if len(args) > 1 else args[0])`.  With zero
arguments, `args[0]` raises IndexError before `PGroup` is reached. -/
def pcallP (args : List Val) : Except Err Val :=
  if args.length > 1 then .ok (PGroupCtor (.tup args))
  else
    match args with
    | [] => .error .indexError
    | a :: _ => .ok (PGroupCtor a)

/-! ## Broadcast semantics of `loop_pattern_func` -/

/-- An argument position of a broadcast-wrapped generator: a scalar, or
a Sequence-valued argument. -/
inductive Arg (α : Type) where
  | scalar (a : α)
  | seqv (xs : List α)

/-- The lengths an argument contributes to the broadcast LCM: none for
a scalar, its length for a Sequence. -/
def Arg.seqLens : Arg α → List Nat
  | .scalar _ => []
  | .seqv xs => [xs.length]

/-- Modelled from the spec: "at each `i`, every Sequence-valued
argument supplies `element_at(arg, i)` and every scalar argument is
reused as-is" (§4.2). -/
def Arg.resolve [Inhabited α] : Arg α → Nat → α
  | .scalar a, _ => a
  | .seqv xs, i => modi xs i

/-- Modelled from the spec: the broadcast rule of `loop_pattern_func`
(in `Main.py`, not under `src/`) for a two-parameter generator, §4.2:
iterate `i` from 0 to `L-1` with `L` the LCM of the lengths of the
Sequence-valued arguments, resolve each argument at `i`, invoke the
generator and append (flat concatenation — the exempt-from-wrapping
case the claim accounts for). -/
def broadcast2 [Inhabited α] [Inhabited β] (f : α → β → List γ) (a : Arg α) (b : Arg β) :
    List γ :=
  let L := LCM (a.seqLens ++ b.seqLens)
  ((List.range L).map (fun i => f (a.resolve i) (b.resolve i))).flatten

/-- Body of `PStutter(x, n=2)` (Sequences.py):
`Pattern([x for i in range(n)])`. -/
def PStutterBody (x : α) (n : Int) : List α :=
  List.replicate n.toNat x

/-- Body of `PStep(n, value, default=0)` (Sequences.py):
`Pattern([default] * (n-1) + [value])`. -/
def PStepBody (n : Int) (value default0 : α) : List α :=
  List.replicate (n - 1).toNat default0 ++ [value]

/-! ## `PRhythm` -/

/-- Modelled from the spec: `accum(seq)` of the external Sequence
container — "running cumulative sum (each element = sum of all prior
durations)" (§4.4, §6). -/
def accum (xs : List Rat) : List Rat :=
  (List.range xs.length).map (fun i => (xs.take i).sum)

/-- A Python number is used as an `int` argument when it is integral,
otherwise the call is a type error. -/
def valToInt : Val → Except Err Int
  | .num q => if q.den = 1 then .ok q.num else .error .typeError
  | _ => .error .typeError

/-- Unpacking `PDur(*item)` for a tuple/PGroup `item` of 2–4 values
(`n, k, start=0, dur=0.25`); any other arity or non-numeric entry is a
TypeError. -/
def pdurArgs : List Val → Except Err (Int × Int × Int × Rat)
  | [a, b] => do
    let n ← valToInt a
    let k ← valToInt b
    pure (n, k, 0, 1 / 4)
  | [a, b, c] => do
    let n ← valToInt a
    let k ← valToInt b
    let s ← valToInt c
    pure (n, k, s, 1 / 4)
  | [a, b, c, d] => do
    let n ← valToInt a
    let k ← valToInt b
    let s ← valToInt c
    match d with
    | .num q => pure (n, k, s, q)
    | _ => .error .typeError
  | _ => .error .typeError

/-- `PDur(*item)` as used by `PRhythm`'s length-1 branch: the resulting
duration Pattern, embedded back into `Val` numbers. -/
def pdurOfTuple (xs : List Val) : Res (List Val) :=
  match pdurArgs xs with
  | .error e => .err e
  | .ok (n, k, s, d) =>
    match PDurRun n k s d with
    | .ok durs => .ok (durs.map Val.num)
    | .err e => .err e
    | .hang => .hang

/-- `PGroup(sum(dur)|dur.accum()[1:])` for `dur = PDur(*item)`, the
value built for a tuple/PGroup element in `PRhythm`'s loop: a Group
holding the total duration followed by the interior cumulative
offsets. -/
def groupOfTuple (xs : List Val) : Res Val :=
  match pdurArgs xs with
  | .error e => .err e
  | .ok (n, k, s, d) =>
    match PDurRun n k s d with
    | .ok durs => .ok (.grp (Val.num durs.sum :: ((accum durs).drop 1).map Val.num))
    | .err e => .err e
    | .hang => .hang

/-- `PRhythm(durations)` (Sequences.py).  A length-1 input whose sole
element is a tuple/PGroup becomes `PDur(*item)`; any other length-1
input is returned unchanged.  Longer inputs are processed element by
element: nested Patterns/lists recurse (and are appended as a single
nested element), tuples/PGroups become the Group described in
`groupOfTuple`, scalars pass through. -/
def PRhythm : List Val → Res (List Val)
  | [item] =>
    match item with
    | .tup xs => pdurOfTuple xs
    | .grp xs => pdurOfTuple xs
    | _ => .ok [item]
  | durations =>
    durations.attach.foldr
      (fun itemh acc =>
        let value : Res Val :=
          match itemh with
          | ⟨.seq xs, _⟩ =>
            match PRhythm xs with
            | .ok ys => .ok (.seq ys)
            | .err e => .err e
            | .hang => .hang
          | ⟨.tup xs, _⟩ => groupOfTuple xs
          | ⟨.grp xs, _⟩ => groupOfTuple xs
          | ⟨v, _⟩ => .ok v
        match value with
        | .ok v =>
          match acc with
          | .ok vs => .ok (v :: vs)
          | e => e
        | .err e => .err e
        | .hang => .hang)
      (.ok [])
termination_by durations => sizeOf durations
decreasing_by
  rename_i hmem
  have hlt : sizeOf (Val.seq xs) < sizeOf durations := List.sizeOf_lt_of_mem hmem
  simp only [Val.seq.sizeOf_spec] at hlt
  omega

/-- Whether a `Val` is a paired specification (Python tuple) or a
PGroup — the two element shapes `PRhythm` expands. -/
def isPairSpec : Val → Bool
  | .tup _ => true
  | .grp _ => true
  | _ => false

/-! ## Helper lemmas -/

theorem PJoin_eq_flatten (l : List (List α)) : PJoin l = l.flatten := by
  have h : ∀ (l : List (List α)) (acc : List α),
      l.foldl (fun a p => a ++ p) acc = acc ++ l.flatten := by
    intro l
    induction l with
    | nil => simp
    | cons x xs ih => intro acc; simp [List.foldl, ih]
  simpa using h l []

/-- With `k ≥ 1`, fuel `fuel` satisfying `n ≤ k * 2 ^ fuel` lets the
refinement loop finish, ending with `n ≤ k2` and preserving the
product `k * dur`. -/
theorem refineLoop_some_of_le (n : Int) :
    ∀ (fuel : Nat) (k : Int) (dur : Rat), 1 ≤ k → n ≤ k * 2 ^ fuel →
      ∃ k2 dur2, refineLoop n fuel k dur = some (k2, dur2) ∧ n ≤ k2 ∧ 1 ≤ k2 ∧
        (k2 : Rat) * dur2 = (k : Rat) * dur := by
  intro fuel
  induction fuel with
  | zero =>
    intro k dur hk hle
    refine ⟨k, dur, ?_, by simpa using hle, hk, rfl⟩
    simp only [refineLoop]
    rw [if_neg]
    simpa using hle
  | succ f ih =>
    intro k dur hk hle
    by_cases h : n > k
    · have hk2 : 1 ≤ k * 2 := by omega
      have hle2 : n ≤ k * 2 * 2 ^ f := by
        have : k * 2 ^ (f + 1) = k * 2 * 2 ^ f := by ring
        omega
      obtain ⟨k2, dur2, heq, hnk2, hk21, hprod⟩ := ih (k * 2) (dur / 2) hk2 hle2
      refine ⟨k2, dur2, ?_, hnk2, hk21, ?_⟩
      · simp only [refineLoop]
        rw [if_pos h]
        exact heq
      · rw [hprod]
        push_cast
        ring
    · refine ⟨k, dur, ?_, by omega, hk, rfl⟩
      simp only [refineLoop]
      rw [if_neg h]

theorem getD_pos_eq (l : List Rat) (j : Nat) (h : j < l.length) :
    l.getD j 0 = l[j] := by
  simp [List.getD_eq_getElem?_getD, List.getElem?_eq_getElem h]

/-- One unfolding step of the first `PSum` loop when the guard holds. -/
theorem psumFill_step (n : Nat) (total : Rat) (f : Nat) (step : Rat) (data : List Rat)
    (h : data.sum > total) :
    psumFill n total (f + 1) step data =
      psumFill n total f (step / 2) (List.replicate n step) := by
  simp only [psumFill]
  rw [if_pos h]

/-- Invariants of a completed first `PSum` loop started on a uniform
list: the final state is again uniform `[2*step']*n`, with a positive
step no larger than the starting one, and its sum no longer exceeds
`total`. -/
theorem psumFill_replicate_inv (n : Nat) (total : Rat) :
    ∀ (fuel : Nat) (step : Rat) (data2 : List Rat) (step2 : Rat), 0 < step →
      psumFill n total fuel step (List.replicate n (step * 2)) = some (data2, step2) →
      0 < step2 ∧ step2 ≤ step ∧ data2 = List.replicate n (step2 * 2) ∧ data2.sum ≤ total := by
  intro fuel
  induction fuel with
  | zero =>
    intro step data2 step2 hstep heq
    simp only [psumFill] at heq
    by_cases h : (List.replicate n (step * 2)).sum > total
    · rw [if_pos h] at heq
      exact absurd heq (by simp)
    · rw [if_neg h] at heq
      obtain ⟨rfl, rfl⟩ : List.replicate n (step * 2) = data2 ∧ step = step2 := by
        simpa using heq
      exact ⟨hstep, le_refl _, rfl, le_of_not_lt h⟩
  | succ f ih =>
    intro step data2 step2 hstep heq
    simp only [psumFill] at heq
    by_cases h : (List.replicate n (step * 2)).sum > total
    · rw [if_pos h] at heq
      have hrepl : List.replicate n step = List.replicate n (step / 2 * 2) := by
        norm_num
      rw [hrepl] at heq
      obtain ⟨h1, h2, h3, h4⟩ := ih (step / 2) data2 step2 (by linarith) heq
      exact ⟨h1, by linarith, h3, h4⟩
    · rw [if_neg h] at heq
      obtain ⟨rfl, rfl⟩ : List.replicate n (step * 2) = data2 ∧ step = step2 := by
        simpa using heq
      exact ⟨hstep, le_refl _, rfl, le_of_not_lt h⟩

/-- Fuel sufficiency for the first `PSum` loop: `fuel + 1` iterations
complete once `n * step * 2 ≤ total * 2 ^ fuel`. -/
theorem psumFill_some (n : Nat) (total : Rat) :
    ∀ (fuel : Nat) (step : Rat) (data : List Rat), 0 < step →
      (n : Rat) * step * 2 ≤ total * 2 ^ fuel →
      ∃ out, psumFill n total (fuel + 1) step data = some out := by
  intro fuel
  induction fuel with
  | zero =>
    intro step data hstep hle
    by_cases h : data.sum > total
    · rw [psumFill_step n total 0 step data h]
      have hsum : (List.replicate n step).sum = (n : Rat) * step := by
        rw [List.sum_replicate, nsmul_eq_mul]
      have hn0 : (0 : Rat) ≤ (n : Rat) * step := by positivity
      have : ¬ (List.replicate n step).sum > total := by
        rw [hsum]
        simp only [pow_zero, mul_one] at hle
        push_neg
        linarith
      simp only [psumFill]
      rw [if_neg this]
      exact ⟨_, rfl⟩
    · simp only [psumFill]
      rw [if_neg h]
      exact ⟨_, rfl⟩
  | succ f ih =>
    intro step data hstep hle
    by_cases h : data.sum > total
    · rw [psumFill_step n total (f + 1) step data h]
      apply ih (step / 2) (List.replicate n step) (by linarith)
      have hpow : total * 2 ^ (f + 1) = total * 2 ^ f * 2 := by ring
      rw [hpow] at hle
      nlinarith
    · simp only [psumFill]
      rw [if_neg h]
      exact ⟨_, rfl⟩

/-- Fuel sufficiency for the second `PSum` loop, measured by
`hB` (pending halvings: `step < lim * 2 ^ hB`) plus `aB` (pending
additions: `total - sum ≤ lim * aB`). -/
theorem psumAdd_some (n : Nat) (total lim : Rat) :
    ∀ (fuel hB aB i : Nat) (step : Rat) (data : List Rat),
      data.length = n → 1 ≤ n →
      step < lim * 2 ^ hB →
      total - data.sum ≤ lim * aB →
      hB + aB ≤ fuel →
      ∃ out, psumAdd n total lim fuel i step data = some out := by
  intro fuel
  induction fuel with
  | zero =>
    intro hB aB i step data hlen hn hhB haB hfuel
    obtain ⟨rfl, rfl⟩ : hB = 0 ∧ aB = 0 := by omega
    have hexit : ¬ (data.sum < total ∧ step ≥ lim) := by
      simp only [pow_zero, mul_one] at hhB
      push_neg
      intro _
      linarith
    simp only [psumAdd]
    rw [if_neg hexit]
    exact ⟨_, rfl⟩
  | succ f ih =>
    intro hB aB i step data hlen hn hhB haB hfuel
    by_cases hcond : data.sum < total ∧ step ≥ lim
    · simp only [psumAdd]
      rw [if_pos hcond]
      by_cases hover : data.sum + step > total
      · rw [if_pos hover]
        cases hB with
        | zero =>
          simp only [pow_zero, mul_one] at hhB
          exact absurd hcond.2 (by linarith)
        | succ hB' =>
          apply ih hB' aB i (step / 2) data hlen hn
          · have : lim * 2 ^ (hB' + 1) = lim * 2 ^ hB' * 2 := by ring
            linarith [hhB.trans_le (le_of_eq this)]
          · exact haB
          · omega
      · rw [if_neg hover]
        cases aB with
        | zero =>
          simp only [Nat.cast_zero, mul_zero] at haB
          exact absurd hcond.1 (by linarith)
        | succ aB' =>
          have hj : i % n < data.length := by
            rw [hlen]
            exact Nat.mod_lt i (by omega)
          have hsum : (data.set (i % n) (data.getD (i % n) 0 + step)).sum =
              data.sum + step := by
            rw [List.sum_set']
            rw [dif_pos hj, getD_pos_eq data (i % n) hj]
            ring
          apply ih hB aB' (i + 1) step (data.set (i % n) (data.getD (i % n) 0 + step))
          · rw [List.length_set, hlen]
          · exact hn
          · exact hhB
          · rw [hsum]
            push_cast at haB ⊢
            have : lim * (aB' + 1) = lim * aB' + lim := by ring
            have hstep : lim ≤ step := hcond.2
            linarith
          · omega
    · simp only [psumAdd]
      rw [if_neg hcond]
      exact ⟨_, rfl⟩

/-- Soundness of the second `PSum` loop: a completed run keeps the
length, keeps every element positive, and never pushes the sum past
`total`. -/
theorem psumAdd_inv (n : Nat) (total lim : Rat) :
    ∀ (fuel i : Nat) (step : Rat) (data out : List Rat), 0 < step →
      data.length = n → 1 ≤ n →
      (∀ x ∈ data, 0 < x) → data.sum ≤ total →
      psumAdd n total lim fuel i step data = some out →
      out.length = n ∧ (∀ x ∈ out, 0 < x) ∧ out.sum ≤ total := by
  intro fuel
  induction fuel with
  | zero =>
    intro i step data out hstep hlen hn hpos hsum heq
    simp only [psumAdd] at heq
    by_cases hcond : data.sum < total ∧ step ≥ lim
    · rw [if_pos hcond] at heq
      exact absurd heq (by simp)
    · rw [if_neg hcond] at heq
      obtain rfl : data = out := by simpa using heq
      exact ⟨hlen, hpos, hsum⟩
  | succ f ih =>
    intro i step data out hstep hlen hn hpos hsum heq
    simp only [psumAdd] at heq
    by_cases hcond : data.sum < total ∧ step ≥ lim
    · rw [if_pos hcond] at heq
      by_cases hover : data.sum + step > total
      · rw [if_pos hover] at heq
        exact ih i (step / 2) data out (by linarith) hlen hn hpos hsum heq
      · rw [if_neg hover] at heq
        have hj : i % n < data.length := by
          rw [hlen]
          exact Nat.mod_lt i (by omega)
        have hgd : data.getD (i % n) 0 = data[i % n] := getD_pos_eq data (i % n) hj
        have hsum2 : (data.set (i % n) (data.getD (i % n) 0 + step)).sum =
            data.sum + step := by
          rw [List.sum_set', dif_pos hj, hgd]
          ring
        apply ih (i + 1) step _ out hstep _ hn _ _ heq
        · rw [List.length_set, hlen]
        · intro x hx
          rcases List.mem_or_eq_of_mem_set hx with hmem | rfl
          · exact hpos x hmem
          · have : 0 < data[i % n] := hpos _ (List.getElem_mem hj)
            rw [hgd]
            linarith
        · rw [hsum2]
          linarith
    · rw [if_neg hcond] at heq
      obtain rfl : data = out := by simpa using heq
      exact ⟨hlen, hpos, hsum⟩

/-- A positive rational never exceeds its own numerator. -/
theorem q_le_num (q : Rat) (h : 0 < q) : q ≤ (q.num : Rat) := by
  have hden : (0 : Rat) < (q.den : Rat) := by
    exact_mod_cast Nat.pos_of_ne_zero q.den_nz
  have hden1 : (1 : Rat) ≤ (q.den : Rat) := by
    have : 1 ≤ q.den := Nat.one_le_iff_ne_zero.mpr q.den_nz
    exact_mod_cast this
  have hnum0 : (0 : Rat) ≤ (q.num : Rat) := by
    have := Rat.num_pos.mpr h
    exact_mod_cast le_of_lt this
  conv_lhs => rw [← Rat.num_div_den q]
  rw [div_le_iff₀ hden]
  nlinarith

/-- When the guard is already false (`n ≤ k`), the refinement loop
exits at once whatever the fuel. -/
theorem refineLoop_exit (n : Int) (fuel : Nat) (k : Int) (dur : Rat) (h : n ≤ k) :
    refineLoop n fuel k dur = some (k, dur) := by
  cases fuel with
  | zero =>
    simp only [refineLoop]
    rw [if_neg (by omega)]
  | succ f =>
    simp only [refineLoop]
    rw [if_neg (by omega)]

/-- If the guard `n > k` can never clear (`k ≤ 0 < n` — doubling a
non-positive `k` keeps it non-positive), the refinement loop runs out
of any amount of fuel: the Python loop diverges. -/
theorem refineLoop_none_of_nonpos (n : Int) :
    ∀ (fuel : Nat) (k : Int) (dur : Rat), k ≤ 0 → 1 ≤ n →
      refineLoop n fuel k dur = none := by
  intro fuel
  induction fuel with
  | zero =>
    intro k dur hk hn
    simp only [refineLoop]
    rw [if_pos (by omega)]
  | succ f ih =>
    intro k dur hk hn
    simp only [refineLoop]
    rw [if_pos (by omega)]
    exact ih (k * 2) (dur / 2) (by omega) hn

/-! ## Claims -/

/-- C1 (counterexample): `PAlt([0,1,2],[3,4])` does not have length
LCM(3,2) = 6 — it appends one element per input per round, so its
length is 12. -/
theorem PAlt_length_six_refuted :
    (PAlt ([0, 1, 2] : List Int) [3, 4] []).length = 12 ∧ (12 : Nat) ≠ 6 := by
  decide

/-- C1 (amended): `PAlt([0,1,2],[3,4])` equals the
round-robin-by-modular-index interleaving of both inputs, of length
`2 * LCM(3,2) = 12` (one element per input per round). -/
theorem PAlt_round_robin :
    PAlt ([0, 1, 2] : List Int) [3, 4] [] = [0, 3, 1, 4, 2, 3, 0, 4, 1, 3, 2, 4] ∧
      (PAlt ([0, 1, 2] : List Int) [3, 4] []).length = 2 * Nat.lcm 3 2 := by
  decide

/-- C2: evaluating `PSum` at the failing input of the claim and at its
second example.  The source's own docstring says `PSum(3,8) -> P[3, 3, 2]`,
but the code returns `[3, 5/2, 5/2]`: the ten round-robin additions of
step 1/2 fall 4/3/3 on the three slots, so no slot can differ from
another by more than 1/2.  `PSum(5,4)` does return
`[1, 0.75, 0.75, 0.75, 0.75]` as documented. -/
theorem PSum_examples_evaluated :
    PSum 3 8 (1 / 8) = some [3, 5 / 2, 5 / 2] ∧
      PSum 5 4 (1 / 8) = some [1, 3 / 4, 3 / 4, 3 / 4, 3 / 4] := by
  constructor
  · with_unfolding_all rfl
  · with_unfolding_all rfl

/-- C4 (counterexample): calling the plain Group constructor `P()` with
zero values raises IndexError (`args[0]` on an empty tuple); it does
not return an empty Sequence. -/
theorem pcall_empty_raises :
    pcallP [] = Except.error Err.indexError := rfl

/-- C4 (amended): calling `P()` with zero values fails with an
IndexError (from `args[0]`) and produces no value, while one- and
multi-value calls do succeed — the failure is specific to the
zero-value case, which has no neutral element. -/
theorem pcall_empty_no_value :
    pcallP [] = Except.error Err.indexError ∧
      pcallP [Val.num 1] = Except.ok (Val.grp [Val.num 1]) ∧
      pcallP [Val.num 1, Val.num 2] = Except.ok (Val.grp [Val.num 1, Val.num 2]) :=
  ⟨rfl, rfl, rfl⟩

/-- C5: for every `n ≥ 1` and `k ≥ 1` the refinement loop at the start
of `PDur` terminates (fuel `n.toNat`, the amount `PDurRun` allots,
suffices), ends in a state with `n ≤ k`, and leaves the product
`k * dur` equal to its value before the loop; each single iteration
`(k, dur) ↦ (k*2, dur/2)` also preserves that product exactly. -/
theorem refine_loop_terminates (n k : Int) (dur : Rat) (hn : 1 ≤ n) (hk : 1 ≤ k) :
    (∃ k2 dur2, refineLoop n n.toNat k dur = some (k2, dur2) ∧ n ≤ k2 ∧
        (k2 : Rat) * dur2 = (k : Rat) * dur) ∧
      ∀ (j : Int) (d : Rat), ((j * 2 : Int) : Rat) * (d / 2) = (j : Rat) * d := by
  constructor
  · have hfuel : n ≤ k * 2 ^ n.toNat := by
      have h1 : n.toNat < 2 ^ n.toNat := Nat.lt_two_pow _
      have h2 : (n.toNat : Int) < (2 : Int) ^ n.toNat := by exact_mod_cast h1
      have h3 : n = (n.toNat : Int) := by omega
      nlinarith [pow_pos (by norm_num : (0 : Int) < 2) n.toNat]
    obtain ⟨k2, dur2, heq, hnk2, _, hprod⟩ :=
      refineLoop_some_of_le n n.toNat k dur hk hfuel
    exact ⟨k2, dur2, heq, hnk2, hprod⟩
  · intro j d
    push_cast
    ring

/-- Witness for C5 at `n = 5`, `k = 2`, `dur = 1/4` (the loop runs
twice: `(2, 1/4) ↦ (4, 1/8) ↦ (8, 1/16)`). -/
theorem refine_loop_terminates_witness :
    (∃ k2 dur2, refineLoop 5 (5 : Int).toNat 2 (1 / 4) = some (k2, dur2) ∧ 5 ≤ k2 ∧
        (k2 : Rat) * dur2 = ((2 : Int) : Rat) * (1 / 4)) ∧
      ∀ (j : Int) (d : Rat), ((j * 2 : Int) : Rat) * (d / 2) = (j : Rat) * d :=
  refine_loop_terminates 5 2 (1 / 4) (by decide) (by decide)

/-- C3 (counterexample): `PDur(3, 8, 0, -1)` — a negative `dur` — does
not fail with InvalidArgument: `dur` is never validated, and the call
returns the Euclidean duration Sequence scaled by `-1`. -/
theorem PDur_negative_dur_returns :
    PDurRun 3 8 0 (-1) = .ok [-3, -3, -2] := by
  with_unfolding_all rfl

/-- C3 (amended): only `n ≤ 0` (with `n ≤ k`, so that the refinement
loop exits) fails with InvalidArgument, raised by the Euclidean
generator; `k ≤ 0` with `n ≥ 1` makes the refinement loop spin forever
(no error, no Sequence); `dur` is never validated — a negative or zero
`dur` produces a normally-computed Sequence scaled by `dur`. -/
theorem PDur_failure_policy :
    (∀ (n k start : Int) (dur : Rat), n ≤ 0 → n ≤ k →
        PDurRun n k start dur = .err .invalidArgument) ∧
      (∀ (n k start : Int) (dur : Rat), 1 ≤ n → k ≤ 0 →
        PDurRun n k start dur = .hang) ∧
      PDurRun 3 8 0 (-1) = .ok [-3, -3, -2] ∧
      PDurRun 3 8 0 0 = .ok [0, 0, 0] := by
  refine ⟨?_, ?_, by with_unfolding_all rfl, by with_unfolding_all rfl⟩
  · intro n k start dur hn hnk
    have hloop : refineLoop n n.toNat k dur = some (k, dur) :=
      refineLoop_exit n n.toNat k dur hnk
    have heuc : EuclidsAlgorithm n k = .error .invalidArgument := by
      simp [EuclidsAlgorithm, hn]
    simp [PDurRun, hloop, heuc]
  · intro n k start dur hn hk
    have hloop : refineLoop n n.toNat k dur = none :=
      refineLoop_none_of_nonpos n n.toNat k dur hk hn
    simp [PDurRun, hloop]

/-- Witness for C3 at `n = -1, k = 5` (InvalidArgument) and
`n = 3, k = 0` (divergence). -/
theorem PDur_failure_policy_witness :
    PDurRun (-1) 5 0 (1 / 4) = .err .invalidArgument ∧
      PDurRun 3 0 0 (1 / 4) = .hang :=
  ⟨PDur_failure_policy.1 (-1) 5 0 (1 / 4) (by decide) (by decide),
    PDur_failure_policy.2.1 3 0 0 (1 / 4) (by decide) (by decide)⟩

/-- C6 (counterexample): `PSum(5, 1)` at the default tolerance 0.125
returns `[1/8, 1/8, 1/8, 1/8, 1/8]`, whose sum 5/8 falls short of the
total 1 by 3/8 — strictly more than the tolerance. -/
theorem PSum_tolerance_violated :
    PSum 5 1 (1 / 8) = some [1 / 8, 1 / 8, 1 / 8, 1 / 8, 1 / 8] ∧
      ([1 / 8, 1 / 8, 1 / 8, 1 / 8, 1 / 8] : List Rat).sum = 5 / 8 ∧
      ¬ ((1 : Rat) - 5 / 8 ≤ 1 / 8) := by
  refine ⟨by with_unfolding_all rfl, by norm_num, by norm_num⟩

/-- C6 (amended): for every `n ≥ 1` and `total > 0`, `PSum(n, total)`
at the default tolerance returns exactly `n` elements, every element
non-negative, and the sum of the elements never exceeds `total` (but
can fall short of it by more than the tolerance, as the counterexample
shows, when the uniform seeding loop already stops below
`total - tolerance` with a step under the tolerance). -/
theorem PSum_shape (n : Nat) (total : Rat) (hn : 1 ≤ n) (htot : 0 < total) :
    ∃ data, PSum n total (1 / 8) = some data ∧ data.length = n ∧
      (∀ x ∈ data, 0 ≤ x) ∧ data.sum ≤ total := by
  have hden0 : (0 : Rat) < (total.den : Rat) := by
    exact_mod_cast Nat.pos_of_ne_zero total.den_nz
  have hnum1 : (1 : Rat) ≤ (total.num : Rat) := by
    have := Rat.num_pos.mpr htot
    exact_mod_cast this
  have hmulden : total * (total.den : Rat) = (total.num : Rat) := by
    rw [mul_comm, Rat.den_mul_eq_num]
  have hcn : (1 : Rat) ≤ (n : Rat) := by exact_mod_cast hn
  -- the first iteration of the fill loop is forced: `total + 1 > total`
  have hgt : ([total + 1] : List Rat).sum > total := by
    simp only [List.sum_cons, List.sum_nil, add_zero]
    linarith
  have hstep1 : psumFill n total (2 * n * total.den + 2) 1 [total + 1] =
      psumFill n total (2 * n * total.den + 1) (1 / 2) (List.replicate n 1) := by
    have h := psumFill_step n total (2 * n * total.den + 1) 1 [total + 1] hgt
    norm_num at h
    exact h
  -- the remaining fuel suffices
  have hfuelbound : (n : Rat) * (1 / 2) * 2 ≤ total * 2 ^ (2 * n * total.den) := by
    have hnn : (n : Rat) * (1 / 2) * 2 = (n : Rat) := by ring
    rw [hnn]
    have h2p : ((2 * n * total.den : Nat) : Rat) < 2 ^ (2 * n * total.den) := by
      exact_mod_cast Nat.lt_two_pow (2 * n * total.den)
    have hkey : (n : Rat) ≤ total * ((2 * n * total.den : Nat) : Rat) := by
      have hrw : total * ((2 * n * total.den : Nat) : Rat) =
          2 * (n : Rat) * (total * (total.den : Rat)) := by
        push_cast
        ring
      rw [hrw, hmulden]
      nlinarith
    calc (n : Rat) ≤ total * ((2 * n * total.den : Nat) : Rat) := hkey
      _ ≤ total * 2 ^ (2 * n * total.den) :=
          mul_le_mul_of_nonneg_left (le_of_lt h2p) (le_of_lt htot)
  obtain ⟨out, hout⟩ := psumFill_some n total (2 * n * total.den) (1 / 2)
      (List.replicate n 1) (by norm_num) hfuelbound
  obtain ⟨dataF, stepF⟩ := out
  have hout2 := hout
  have hrepl : List.replicate n (1 : Rat) = List.replicate n (1 / 2 * 2) := by
    norm_num
  rw [hrepl] at hout2
  obtain ⟨hposF, hleF, hform, hsumle⟩ := psumFill_replicate_inv n total
      (2 * n * total.den + 1) (1 / 2) dataF stepF (by norm_num) hout2
  -- unfold `PSum` along the completed fill loop
  have hPSum : PSum n total (1 / 8) =
      psumAdd n total (1 / 8) (3 + (8 * total).num.toNat) 0 stepF dataF := by
    simp only [PSum]
    rw [hstep1, hout]
  -- the adding loop's fuel suffices: 3 pending halvings, num(8·total) additions
  have hlenF : dataF.length = n := by
    rw [hform, List.length_replicate]
  have hstepF1 : stepF < (1 / 8 : Rat) * 2 ^ 3 := by
    norm_num
    linarith
  have haB : total - dataF.sum ≤ (1 / 8 : Rat) * (((8 * total).num.toNat : Nat) : Rat) := by
    have hsum0 : (0 : Rat) ≤ dataF.sum := by
      rw [hform, List.sum_replicate, nsmul_eq_mul]
      positivity
    have h8pos : (0 : Rat) < 8 * total := by linarith
    have h8num : (8 : Rat) * total ≤ ((8 * total).num : Rat) := q_le_num _ h8pos
    have htn : (((8 * total).num.toNat : Nat) : Rat) = ((8 * total).num : Rat) := by
      have hpos := Rat.num_pos.mpr h8pos
      have := Int.toNat_of_nonneg (le_of_lt hpos)
      exact_mod_cast congrArg (fun z : Int => (z : Rat)) this
    rw [htn]
    linarith
  obtain ⟨outA, houtA⟩ := psumAdd_some n total (1 / 8)
      (3 + (8 * total).num.toNat) 3 ((8 * total).num.toNat) 0 stepF dataF
      hlenF hn hstepF1 haB (le_refl _)
  have hposAll : ∀ x ∈ dataF, 0 < x := by
    intro x hx
    rw [hform] at hx
    rw [List.eq_of_mem_replicate hx]
    linarith
  obtain ⟨hl2, hp2, hs2⟩ := psumAdd_inv n total (1 / 8)
      (3 + (8 * total).num.toNat) 0 stepF dataF outA hposF hlenF hn hposAll hsumle houtA
  exact ⟨outA, by rw [hPSum]; exact houtA, hl2, fun x hx => le_of_lt (hp2 x hx), hs2⟩

/-- Witness for C6 (amended) at `n = 2`, `total = 3`. -/
theorem PSum_shape_witness :
    ∃ data, PSum 2 3 (1 / 8) = some data ∧ data.length = 2 ∧
      (∀ x ∈ data, 0 ≤ x) ∧ data.sum ≤ 3 :=
  PSum_shape 2 3 (by decide) (by decide)

/-- C7: with default `start=0` and `dur=0.25`, `PDur(3, 8)` returns
exactly `[0.75, 0.75, 0.5]` and `PDur(5, 16)` returns exactly
`[0.75, 0.75, 0.75, 0.75, 1]`. -/
theorem PDur_examples :
    PDurRun 3 8 0 (1 / 4) = .ok [3 / 4, 3 / 4, 1 / 2] ∧
      PDurRun 5 16 0 (1 / 4) = .ok [3 / 4, 3 / 4, 3 / 4, 3 / 4, 1] := by
  constructor
  · with_unfolding_all rfl
  · with_unfolding_all rfl

/-- C9: broadcast law — for a two-parameter generator `f` with one
scalar parameter replaced by a Sequence `p` of length `L` (in either
position) and the other parameter scalar, the broadcast-wrapped call
equals the join of the per-call results
`f(element_at(p,0)), …, f(element_at(p,L-1))`. -/
theorem broadcast_law {α β γ : Type} [Inhabited α] [Inhabited β]
    (f : α → β → List γ) (p : List α) (b : β) (a : α) (q : List β) :
    broadcast2 f (.seqv p) (.scalar b) =
        PJoin ((List.range p.length).map (fun i => f (modi p i) b)) ∧
      broadcast2 f (.scalar a) (.seqv q) =
        PJoin ((List.range q.length).map (fun i => f a (modi q i))) := by
  constructor
  · rw [PJoin_eq_flatten]
    simp [broadcast2, Arg.seqLens, Arg.resolve, LCM, Nat.lcm_one_right]
  · rw [PJoin_eq_flatten]
    simp [broadcast2, Arg.seqLens, Arg.resolve, LCM, Nat.lcm_one_right]

/-- C10: `PRhythm` on a length-1 input whose sole element is neither a
paired specification (tuple) nor a PGroup returns its argument
unchanged — the same (structurally identical) container, with no
expansion, recursion, or conversion. -/
theorem PRhythm_singleton_passthrough :
    ∀ v : Val, isPairSpec v = false → PRhythm [v] = .ok [v] := by
  intro v h
  cases v <;> simp [isPairSpec] at h <;> simp [PRhythm]

/-- C8: for every sequence `seq` and every `size ≥ 1`,
`PStretch(seq, size)` returns exactly `size` elements (cyclic
repetition truncated to `size`), and the operation is idempotent. -/
theorem PStretch_exact_and_idempotent {α : Type} [Inhabited α]
    (seq : List α) (size : Nat) (_hsize : 1 ≤ size) :
    (PStretch seq size).length = size ∧
      PStretch (PStretch seq size) size = PStretch seq size := by
  constructor
  · simp [PStretch, stretch]
  · unfold PStretch stretch
    apply List.map_congr_left
    intro n hn
    have hn' : n < size := List.mem_range.mp hn
    simp [modi, List.length_map, List.length_range, Nat.mod_eq_of_lt hn',
      List.getD_eq_getElem?_getD, List.getElem?_map, List.getElem?_range, hn']

/-- Witness for C8 at `seq = [0,1,2]`, `size = 5`. -/
theorem PStretch_exact_and_idempotent_witness :
    (PStretch ([0, 1, 2] : List Int) 5).length = 5 ∧
      PStretch (PStretch ([0, 1, 2] : List Int) 5) 5 = PStretch ([0, 1, 2] : List Int) 5 :=
  PStretch_exact_and_idempotent [0, 1, 2] 5 (by decide)

/-- Witness for C10 at the concrete scalar input `[1]`. -/
theorem PRhythm_singleton_passthrough_witness :
    PRhythm [Val.num 1] = .ok [Val.num 1] :=
  PRhythm_singleton_passthrough (Val.num 1) rfl

end FoxDotSeq
